import Mathlib

/- Shallow embedding of the Market Research Assistant core pipeline:
text metrics (word_count, enforce_word_limits), the industry classifier
(is_valid_industry), the Wikipedia source retriever (get_wikipedia_urls),
the provider-response text extractor (extract_text_from_response) and the
section-wise report generation loop.  Text is modelled as a list of
characters; the embedding covers the ASCII fragment of the Python
regular-expression character classes involved (the regex class \w is
modelled as [A-Za-z0-9_], Python str.isdigit as [0-9]+, and Python
whitespace as the six ASCII whitespace characters).  External effects
(the BLS industry list fetch, difflib fuzzy matching, the Gemini model
call and the Wikipedia search/page services) are passed in as explicit
parameters; a model call that raises an exception is represented by the
value none. -/

namespace App

/-- Text is a list of characters. -/
abbrev Text := List Char

/-- Characters matched by the regex class \w, ASCII fragment: [A-Za-z0-9_]. -/
def isWordChar (c : Char) : Bool :=
  ('a' ≤ c && c ≤ 'z') || ('A' ≤ c && c ≤ 'Z') || ('0' ≤ c && c ≤ '9') || c == '_'

/-- ASCII whitespace, the characters stripped by Python str.strip and
matched by the regex class \s. -/
def pyIsSpace (c : Char) : Bool :=
  c == ' ' || c == '\t' || c == '\n' || c == '\r' || c == '\x0b' || c == '\x0c'

/-- Scanner producing the spans (start, stop) of the matches of the regex
\b\w+\b, i.e. the maximal runs of word characters, as re.finditer does.
The state is the position of the first character of the currently open
run, or none when no run is open. -/
def scanW : Text → Nat → Option Nat → List (Nat × Nat)
  | [], _, none => []
  | [], i, some s => [(s, i)]
  | c :: rest, i, none =>
      if isWordChar c then scanW rest (i + 1) (some i) else scanW rest (i + 1) none
  | c :: rest, i, some s =>
      if isWordChar c then scanW rest (i + 1) (some s)
      else (s, i) :: scanW rest (i + 1) none

/-- The spans of the matches of re.finditer with pattern \b\w+\b. -/
def findWordMatches (text : Text) : List (Nat × Nat) :=
  scanW text 0 none

/-- The matched substrings, as re.findall with pattern \b\w+\b returns. -/
def pyFindall (text : Text) : List Text :=
  (findWordMatches text).map (fun m => (text.take m.2).drop m.1)

/-- word_count from the source: len(re.findall(r"\b\w+\b", text)). -/
def word_count (text : Text) : Nat :=
  (pyFindall text).length

/-- Counter of maximal-run starts: a run starts at a word character that is
not preceded by a word character.  The Boolean argument records whether the
previous character was a word character.  This is the specification-side
reading of counting maximal runs of word characters. -/
def runStartCountAux : Text → Bool → Nat
  | [], _ => 0
  | c :: rest, prev =>
      (if isWordChar c && !prev then 1 else 0) + runStartCountAux rest (isWordChar c)

/-- The number of maximal runs of word characters in a text. -/
def maximalRunCount (cs : Text) : Nat :=
  runStartCountAux cs false

/-- The scanner state left after processing a list of characters: whether
its last character is a word character (the argument when it is empty). -/
def endState : Bool → Text → Bool
  | prev, [] => prev
  | _, c :: rest => endState (isWordChar c) rest

/-- Python str.rstrip(): remove trailing whitespace. -/
def pyRstrip (cs : Text) : Text :=
  (cs.reverse.dropWhile pyIsSpace).reverse

/-- Python matches[max_words - 1].end().  The bounds are natural numbers;
for max_words = 0 the Python index is -1, which selects the last match.
The default 0 is unreachable in enforce_word_limits, where the list is
known to be longer than max_words. -/
def cutoffPos (ms : List (Nat × Nat)) (max_words : Nat) : Nat :=
  if max_words = 0 then ((ms.getLast?).map Prod.snd).getD 0
  else ((ms.get? (max_words - 1)).map Prod.snd).getD 0

/-- The hard-cut step of enforce_word_limits:
truncated = text[:cutoff_pos].rstrip(). -/
def hardTruncated (text : Text) (max_words : Nat) : Text :=
  pyRstrip (text.take (cutoffPos (findWordMatches text) max_words))

/-- The sentence terminators ".", "!", "?". -/
def isTerminator (c : Char) : Bool :=
  c == '.' || c == '!' || c == '?'

/-- Python truncated.endswith((".", "!", "?")). -/
def endsWithTerminator (cs : Text) : Bool :=
  match cs.getLast? with
  | some c => isTerminator c
  | none => false

/-- Python str.rfind for a single character: the highest index at which the
character occurs, or -1 when it does not occur. -/
def pyRfind (cs : Text) (c : Char) : Int :=
  match cs with
  | [] => -1
  | a :: rest =>
      let r := pyRfind rest c
      if 0 ≤ r then r + 1
      else if a == c then 0 else -1

/-- The backward scan for the nearest sentence terminator in
enforce_word_limits: if the truncated text does not already end with a
terminator, trim it to just after the last terminator, when one exists. -/
def sentenceTrim (truncated : Text) : Text :=
  if endsWithTerminator truncated then truncated
  else if max (pyRfind truncated '.') (max (pyRfind truncated '!') (pyRfind truncated '?')) ≠ -1 then
    truncated.take
      ((max (pyRfind truncated '.') (max (pyRfind truncated '!') (pyRfind truncated '?'))).toNat + 1)
  else truncated

/-- The status component of the result of enforce_word_limits. -/
inductive Status
  | ok
  | too_short
  | truncated
deriving DecidableEq

/-- enforce_word_limits from the source: over the maximum, hard-cut after
the max_words-th word, strip trailing whitespace, trim back to the last
sentence terminator when one exists, status truncated; under the minimum,
text unchanged with status too_short; otherwise text unchanged, status ok. -/
def enforce_word_limits (text : Text) (min_words max_words : Nat) : Text × Status :=
  let count := (findWordMatches text).length
  if max_words < count then
    (sentenceTrim (hardTruncated text max_words), Status.truncated)
  else if count < min_words then (text, Status.too_short)
  else (text, Status.ok)

/-- Python str.strip(): remove leading and trailing whitespace. -/
def pyStripStr (s : String) : String :=
  ⟨pyRstrip (s.data.dropWhile pyIsSpace)⟩

/-- Python str.lower(), ASCII fragment. -/
def pyLower (s : String) : String :=
  ⟨s.data.map Char.toLower⟩

/-- Python str.upper(), ASCII fragment. -/
def pyUpper (s : String) : String :=
  ⟨s.data.map Char.toUpper⟩

/-- Python str.isdigit(), ASCII fragment: non-empty and all characters
decimal digits. -/
def pyIsDigit (s : String) : Bool :=
  !s.data.isEmpty && s.data.all (fun c => '0' ≤ c && c ≤ '9')

/-- The character class of the syntactic gate:
[a-zA-Z0-9\s\&\,\.\-\/]. -/
def isAllowedChar (c : Char) : Bool :=
  ('a' ≤ c && c ≤ 'z') || ('A' ≤ c && c ≤ 'Z') || ('0' ≤ c && c ≤ '9') ||
    pyIsSpace c || c == '&' || c == ',' || c == '.' || c == '-' || c == '/'

/-- re.match(r'^[a-zA-Z0-9\s\&\,\.\-\/]+$', text) succeeds exactly when the
text is non-empty and every character lies in the class. -/
def matchesAllowed (s : String) : Bool :=
  !s.data.isEmpty && s.data.all isAllowedChar

/-- extract_text_from_response from the source.  A response is none when it
is falsy or has no candidates, otherwise the list of parts of the first
candidate, each part being some text (possibly empty, which is falsy in
Python and skipped) or none when the part has no text attribute.  The
concatenated text is cleansed of NUL and carriage-return characters
(replace with the empty string is removal, hence filter) and stripped. -/
def extract_text_from_response (response : Option (List (Option String))) : String :=
  let text_output : String :=
    match response with
    | none => ""
    | some parts =>
        parts.foldl
          (fun acc part =>
            match part with
            | some t => if t = "" then acc else acc ++ t
            | none => acc)
          ""
  pyStripStr ⟨(text_output.data.filter (fun c => !(c == '\x00'))).filter (fun c => !(c == '\r'))⟩

/-- is_valid_industry from the source.  The external effects are passed as
parameters: bls_industries is the cached BLS list (empty when the fetch
failed), close_match models difflib.get_close_matches with cutoff 0.6
returning whether any match was found, and model_reply is the Gemini
classification call, none representing a raised exception (timeout,
transport error) and some r a returned response r. -/
def is_valid_industry (bls_industries : List String)
    (close_match : String → List String → Bool)
    (model_reply : Option (Option (List (Option String))))
    (user_input : String) : Bool :=
  let text := pyStripStr user_input
  if text.length < 3 then false
  else if pyIsDigit text then false
  else if !matchesAllowed text then false
  else if !bls_industries.isEmpty && close_match (pyLower text) bls_industries then true
  else
    match model_reply with
    | none => true
    | some response =>
        pyUpper (pyStripStr (extract_text_from_response response)) == "YES"

/-- get_wikipedia_urls from the source.  search_results is the ranked title
list returned by wikipedia.search(query, results=5); page resolves a title
to some (fullurl, text) when the page exists and none otherwise.  The loop
appends the url and text of each existing page in rank order. -/
def get_wikipedia_urls {α : Type} (search_results : List α)
    (page : α → Option (String × String)) : List String × List String :=
  search_results.foldl
    (fun acc title =>
      match page title with
      | some pr => (acc.1 ++ [pr.1], acc.2 ++ [pr.2])
      | none => acc)
    ([], [])

/-- The five fixed section headings of the report. -/
def report_sections : List String :=
  ["EXECUTIVE SUMMARY", "MARKET DYNAMICS & SIZE", "KEY TECHNOLOGICAL OR SOCIAL TRENDS",
    "COMPETITIVE LANDSCAPE", "FUTURE OUTLOOK & CHALLENGES"]

/-- The section generation loop of the synthesis step.  gen is the
generation provider, mapping a section heading to the model response for
its prompt.  Each section text is extracted; when the stripped text is
empty the whole loop aborts (st.stop in the source), modelled by none, so
no partial list of parts is ever produced. -/
def generate_report_parts (gen : String → Option (List (Option String))) :
    List String → Option (List String)
  | [] => some []
  | s :: rest =>
      let section_text := extract_text_from_response (gen s)
      if pyStripStr section_text = "" then none
      else
        match generate_report_parts gen rest with
        | none => none
        | some parts => some (pyStripStr section_text :: parts)

/- Helper lemmas about takeWhile, dropWhile, indexing and getLast?. -/

theorem length_takeWhile_le' (p : Char → Bool) : ∀ l : Text, (l.takeWhile p).length ≤ l.length := by
  intro l
  induction l with
  | nil => simp
  | cons c rest ih =>
    rw [List.takeWhile_cons]
    by_cases h : p c = true
    · simpa [h] using ih
    · simp [h]

theorem take_takeWhile (p : Char → Bool) : ∀ l : Text, l.take (l.takeWhile p).length = l.takeWhile p := by
  intro l
  induction l with
  | nil => rfl
  | cons c rest ih =>
    rw [List.takeWhile_cons]
    by_cases h : p c = true
    · simp only [h, if_true, List.length_cons, List.take_succ_cons, ih]
    · simp [h]

theorem drop_takeWhile (p : Char → Bool) : ∀ l : Text, l.drop (l.takeWhile p).length = l.dropWhile p := by
  intro l
  induction l with
  | nil => rfl
  | cons c rest ih =>
    rw [List.takeWhile_cons, List.dropWhile_cons]
    by_cases h : p c = true
    · simp only [h, if_true, List.length_cons, List.drop_succ_cons, ih]
    · simp [h]

theorem dropWhile_head_false (p : Char → Bool) : ∀ (l : Text) (c : Char) (r : Text),
    l.dropWhile p = c :: r → p c = false := by
  intro l
  induction l with
  | nil => intro c r h; simp at h
  | cons a t ih =>
    intro c r h
    rw [List.dropWhile_cons] at h
    by_cases ha : p a = true
    · rw [if_pos ha] at h
      exact ih c r h
    · rw [if_neg ha] at h
      injection h with h1 _
      subst h1
      simpa using ha

theorem getLast?_take_succ {α : Type} : ∀ (l : List α) (n : Nat) (c : α),
    l.get? n = some c → (l.take (n + 1)).getLast? = some c := by
  intro l
  induction l with
  | nil => intro n c h; simp at h
  | cons a t ih =>
    intro n c h
    cases n with
    | zero =>
      rw [List.get?_cons_zero] at h
      injection h with h1
      subst h1
      rfl
    | succ n =>
      rw [List.get?_cons_succ] at h
      rw [List.take_succ_cons]
      have ht := ih n c h
      cases hx : t.take (n + 1) with
      | nil => rw [hx] at ht; simp at ht
      | cons x xs =>
        rw [hx] at ht
        rw [List.getLast?_cons_cons]
        exact ht

theorem getLast?_mem' {α : Type} : ∀ (l : List α) (c : α), l.getLast? = some c → c ∈ l := by
  intro l
  induction l with
  | nil => intro c h; simp at h
  | cons a t ih =>
    intro c h
    cases t with
    | nil =>
      have : a = c := by
        have h' : some a = some c := h
        injection h'
      subst this
      exact List.mem_cons_self a []
    | cons b r =>
      rw [List.getLast?_cons_cons] at h
      exact List.mem_cons_of_mem a (ih c h)

/- Lemmas about the run-start counter. -/

theorem runStartCountAux_append : ∀ (a b : Text) (prev : Bool),
    runStartCountAux (a ++ b) prev = runStartCountAux a prev + runStartCountAux b (endState prev a) := by
  intro a
  induction a with
  | nil => intro b prev; simp [runStartCountAux, endState]
  | cons c rest ih =>
    intro b prev
    simp only [List.cons_append, runStartCountAux, endState, List.append_eq]
    rw [ih b (isWordChar c)]
    omega

theorem runStartCountAux_all_word : ∀ l : Text,
    (∀ c ∈ l, isWordChar c = true) → runStartCountAux l true = 0 := by
  intro l
  induction l with
  | nil => intro _; rfl
  | cons c rest ih =>
    intro h
    have hc : isWordChar c = true := h c (List.mem_cons_self c rest)
    have hrest := ih (fun x hx => h x (List.mem_cons_of_mem _ hx))
    simp [runStartCountAux, hc, hrest]

theorem endState_all_word : ∀ l : Text,
    (∀ c ∈ l, isWordChar c = true) → endState true l = true := by
  intro l
  induction l with
  | nil => intro _; rfl
  | cons c rest ih =>
    intro h
    have hc : isWordChar c = true := h c (List.mem_cons_self c rest)
    show endState (isWordChar c) rest = true
    rw [hc]
    exact ih (fun x hx => h x (List.mem_cons_of_mem _ hx))

theorem runStartCountAux_head_not_word : ∀ l : Text,
    (∀ c, l.head? = some c → isWordChar c = false) →
    runStartCountAux l true = runStartCountAux l false := by
  intro l h
  cases l with
  | nil => rfl
  | cons c rest =>
    have hc : isWordChar c = false := h c rfl
    simp [runStartCountAux, hc]

theorem maximalRunCount_le_append (a b : Text) :
    maximalRunCount a ≤ maximalRunCount (a ++ b) := by
  unfold maximalRunCount
  rw [runStartCountAux_append]
  omega

theorem maximalRunCount_mono (a b : Text) (h : a <+: b) :
    maximalRunCount a ≤ maximalRunCount b := by
  obtain ⟨t, rfl⟩ := h
  exact maximalRunCount_le_append a t

/- Lemmas about the match scanner. -/

theorem scanW_some_eq : ∀ (cs : Text) (i s : Nat),
    scanW cs i (some s) =
      (s, i + (cs.takeWhile isWordChar).length) ::
        scanW (cs.drop (cs.takeWhile isWordChar).length) (i + (cs.takeWhile isWordChar).length) none := by
  intro cs
  induction cs with
  | nil => intro i s; simp [scanW]
  | cons c rest ih =>
    intro i s
    by_cases hw : isWordChar c = true
    · rw [List.takeWhile_cons, if_pos hw]
      simp only [scanW, hw, if_true, List.length_cons, List.drop_succ_cons]
      rw [ih (i + 1) s]
      have harith : i + 1 + (rest.takeWhile isWordChar).length =
          i + ((rest.takeWhile isWordChar).length + 1) := by omega
      rw [harith]
    · have hw' : isWordChar c = false := by simpa using hw
      rw [List.takeWhile_cons, if_neg (by simp [hw'])]
      simp [scanW, hw']

theorem scanW_lengths : ∀ cs : Text,
    (∀ i, (scanW cs i none).length = maximalRunCount cs) ∧
    (∀ i s, (scanW cs i (some s)).length = 1 + runStartCountAux cs true) := by
  intro cs
  induction cs with
  | nil =>
    constructor
    · intro i; rfl
    · intro i s; rfl
  | cons c rest ih =>
    obtain ⟨ihn, ihs⟩ := ih
    constructor
    · intro i
      by_cases hw : isWordChar c = true
      · simp only [scanW, hw, if_true]
        rw [ihs (i + 1) i]
        simp [maximalRunCount, runStartCountAux, hw]
      · have hw' : isWordChar c = false := by simpa using hw
        simp only [scanW, hw', Bool.false_eq_true, if_false]
        rw [ihn (i + 1)]
        simp [maximalRunCount, runStartCountAux, hw']
    · intro i s
      by_cases hw : isWordChar c = true
      · simp only [scanW, hw, if_true]
        rw [ihs (i + 1) s]
        simp [runStartCountAux, hw]
      · have hw' : isWordChar c = false := by simpa using hw
        simp only [scanW, hw', Bool.false_eq_true, if_false, List.length_cons]
        rw [ihn (i + 1)]
        simp [maximalRunCount, runStartCountAux, hw']
        omega

theorem word_count_eq_matches_length (cs : Text) :
    word_count cs = (findWordMatches cs).length := by
  simp [word_count, pyFindall]

theorem word_count_eq_runs (cs : Text) : word_count cs = maximalRunCount cs := by
  rw [word_count_eq_matches_length]
  exact (scanW_lengths cs).1 0

/-- Master specification of the match scanner: for the j-th match (s, e)
produced when scanning cs from offset i, the end position e lies past i and
within the text, the prefix of cs up to e (relative to i) contains exactly
j + 1 maximal runs of word characters, the character just before e is a
word character, and the character at e (when any) is not. -/
theorem scanW_none_spec : ∀ (fuel : Nat) (cs : Text), cs.length ≤ fuel →
    ∀ i j s e, (scanW cs i none).get? j = some (s, e) →
      i + 1 ≤ e ∧ e ≤ i + cs.length ∧
      maximalRunCount (cs.take (e - i)) = j + 1 ∧
      (∃ c, cs.get? (e - 1 - i) = some c ∧ isWordChar c = true) ∧
      (∀ c, cs.get? (e - i) = some c → isWordChar c = false) := by
  intro fuel
  induction fuel with
  | zero =>
    intro cs hle i j s e h
    have hnil : cs = [] := List.length_eq_zero.mp (Nat.le_zero.mp hle)
    subst hnil
    simp [scanW] at h
  | succ n ih =>
    intro cs hle i j s e h
    cases cs with
    | nil => simp [scanW] at h
    | cons c rest =>
      have hlerest : rest.length ≤ n := by
        simp only [List.length_cons] at hle
        omega
      by_cases hw : isWordChar c = true
      · rw [show scanW (c :: rest) i none = scanW rest (i + 1) (some i) from by
          simp [scanW, hw]] at h
        rw [scanW_some_eq] at h
        have hkle : (rest.takeWhile isWordChar).length ≤ rest.length :=
          length_takeWhile_le' isWordChar rest
        have htk : rest.take (rest.takeWhile isWordChar).length = rest.takeWhile isWordChar :=
          take_takeWhile isWordChar rest
        have hdk : rest.drop (rest.takeWhile isWordChar).length = rest.dropWhile isWordChar :=
          drop_takeWhile isWordChar rest
        cases j with
        | zero =>
          rw [List.get?_cons_zero] at h
          have hse : i = s ∧ i + 1 + (rest.takeWhile isWordChar).length = e := by
            have h1 := h
            injection h1 with h2
            exact ⟨congrArg Prod.fst h2, congrArg Prod.snd h2⟩
          obtain ⟨-, hee⟩ := hse
          refine ⟨by omega, by simp only [List.length_cons]; omega, ?_, ?_, ?_⟩
          · have het : e - i = (rest.takeWhile isWordChar).length + 1 := by omega
            rw [het, List.take_succ_cons, htk]
            have hall : ∀ x ∈ rest.takeWhile isWordChar, isWordChar x = true :=
              fun x hx => List.mem_takeWhile_imp hx
            have hz := runStartCountAux_all_word (rest.takeWhile isWordChar) hall
            simp [maximalRunCount, runStartCountAux, hw, hz]
          · have het : e - 1 - i = (rest.takeWhile isWordChar).length := by omega
            rw [het]
            cases hk0 : (rest.takeWhile isWordChar).length with
            | zero => exact ⟨c, by rw [List.get?_cons_zero], hw⟩
            | succ m =>
              have hm : m < (rest.takeWhile isWordChar).length := by omega
              have hsome : ∃ x, (rest.takeWhile isWordChar).get? m = some x := by
                cases hx : (rest.takeWhile isWordChar).get? m with
                | none =>
                  have := List.get?_eq_none.mp hx
                  omega
                | some x => exact ⟨x, rfl⟩
              obtain ⟨x, hx⟩ := hsome
              refine ⟨x, ?_, List.mem_takeWhile_imp (List.get?_mem hx)⟩
              rw [List.get?_cons_succ]
              have : rest.get? m = (rest.take (rest.takeWhile isWordChar).length).get? m :=
                (List.get?_take hm).symm
              rw [this, htk, hx]
          · intro c' hc'
            have het : e - i = (rest.takeWhile isWordChar).length + 1 := by omega
            rw [het, List.get?_cons_succ] at hc'
            have : rest.get? (rest.takeWhile isWordChar).length =
                (rest.drop (rest.takeWhile isWordChar).length).get? 0 := by
              rw [List.get?_drop, Nat.add_zero]
            rw [this, hdk] at hc'
            cases hd : rest.dropWhile isWordChar with
            | nil => rw [hd] at hc'; simp at hc'
            | cons x xs =>
              rw [hd] at hc'
              rw [List.get?_cons_zero] at hc'
              injection hc' with hcx
              subst hcx
              exact dropWhile_head_false isWordChar rest x xs hd
        | succ j =>
          rw [List.get?_cons_succ] at h
          have hlen : (rest.drop (rest.takeWhile isWordChar).length).length ≤ n := by
            rw [List.length_drop]
            omega
          obtain ⟨h1, h2, h3, h4, h5⟩ :=
            ih (rest.drop (rest.takeWhile isWordChar).length) hlen
              (i + 1 + (rest.takeWhile isWordChar).length) j s e h
          rw [List.length_drop] at h2
          refine ⟨by omega, by simp only [List.length_cons]; omega, ?_, ?_, ?_⟩
          · have het : e - i = ((rest.takeWhile isWordChar).length +
                (e - (i + 1 + (rest.takeWhile isWordChar).length))) + 1 := by omega
            rw [het, List.take_succ_cons, List.take_add, htk]
            have hall : ∀ x ∈ rest.takeWhile isWordChar, isWordChar x = true :=
              fun x hx => List.mem_takeWhile_imp hx
            have hz := runStartCountAux_all_word (rest.takeWhile isWordChar) hall
            have hes := endState_all_word (rest.takeWhile isWordChar) hall
            have hhead : ∀ c', ((rest.drop (rest.takeWhile isWordChar).length).take
                (e - (i + 1 + (rest.takeWhile isWordChar).length))).head? = some c' →
                isWordChar c' = false := by
              intro c' hc'
              rw [hdk] at hc'
              cases hd : rest.dropWhile isWordChar with
              | nil => rw [hd] at hc'; simp at hc'
              | cons x xs =>
                rw [hd] at hc'
                cases ht0 : e - (i + 1 + (rest.takeWhile isWordChar).length) with
                | zero => rw [ht0] at hc'; simp at hc'
                | succ m =>
                  rw [ht0, List.take_succ_cons] at hc'
                  have hx : x = c' := by
                    have := hc'
                    injection this
                  subst hx
                  exact dropWhile_head_false isWordChar rest x xs hd
            have hstep := runStartCountAux_head_not_word
              ((rest.drop (rest.takeWhile isWordChar).length).take
                (e - (i + 1 + (rest.takeWhile isWordChar).length))) hhead
            simp only [maximalRunCount, runStartCountAux, hw, Bool.not_false, Bool.and_true,
              if_true] at h3 ⊢
            rw [runStartCountAux_append, hz, hes, hstep]
            omega
          · obtain ⟨c', hc', hwc'⟩ := h4
            rw [List.get?_drop] at hc'
            have het : e - 1 - i = ((rest.takeWhile isWordChar).length +
                (e - 1 - (i + 1 + (rest.takeWhile isWordChar).length))) + 1 := by omega
            refine ⟨c', ?_, hwc'⟩
            rw [het, List.get?_cons_succ]
            exact hc'
          · intro c' hc'
            have het : e - i = ((rest.takeWhile isWordChar).length +
                (e - (i + 1 + (rest.takeWhile isWordChar).length))) + 1 := by omega
            rw [het, List.get?_cons_succ] at hc'
            refine h5 c' ?_
            rw [List.get?_drop]
            exact hc'
      · have hw' : isWordChar c = false := by simpa using hw
        rw [show scanW (c :: rest) i none = scanW rest (i + 1) none from by
          simp [scanW, hw']] at h
        obtain ⟨h1, h2, h3, h4, h5⟩ := ih rest hlerest (i + 1) j s e h
        refine ⟨by omega, by simp only [List.length_cons]; omega, ?_, ?_, ?_⟩
        · have het : e - i = (e - (i + 1)) + 1 := by omega
          rw [het, List.take_succ_cons]
          simp only [maximalRunCount, runStartCountAux, hw', Bool.false_and, if_false] at h3 ⊢
          simpa using h3
        · obtain ⟨c', hc', hwc'⟩ := h4
          have het : e - 1 - i = (e - 1 - (i + 1)) + 1 := by omega
          refine ⟨c', ?_, hwc'⟩
          rw [het, List.get?_cons_succ]
          exact hc'
        · intro c' hc'
          have het : e - i = (e - (i + 1)) + 1 := by omega
          rw [het, List.get?_cons_succ] at hc'
          exact h5 c' hc'

/-- Specification of findWordMatches at offset 0. -/
theorem findWordMatches_end_spec (cs : Text) (j s e : Nat)
    (h : (findWordMatches cs).get? j = some (s, e)) :
    1 ≤ e ∧ e ≤ cs.length ∧ maximalRunCount (cs.take e) = j + 1 ∧
    (∃ c, cs.get? (e - 1) = some c ∧ isWordChar c = true) ∧
    (∀ c, cs.get? e = some c → isWordChar c = false) := by
  have hspec := scanW_none_spec cs.length cs le_rfl 0 j s e h
  simpa using hspec

/- Lemmas about pyRfind. -/

theorem pyRfind_ge_neg_one : ∀ (l : Text) (c : Char), -1 ≤ pyRfind l c := by
  intro l c
  induction l with
  | nil => simp [pyRfind]
  | cons a rest ih =>
    simp only [pyRfind]
    split
    · omega
    · split <;> omega

theorem pyRfind_lt_length : ∀ (l : Text) (c : Char), pyRfind l c < l.length := by
  intro l c
  induction l with
  | nil => simp [pyRfind]
  | cons a rest ih =>
    simp only [pyRfind, List.length_cons]
    split
    · push_cast
      omega
    · split <;> (push_cast; omega)

theorem pyRfind_mem_ge_zero : ∀ (l : Text) (c : Char), c ∈ l → 0 ≤ pyRfind l c := by
  intro l c
  induction l with
  | nil => intro h; simp at h
  | cons a rest ih =>
    intro h
    simp only [pyRfind]
    rcases List.mem_cons.mp h with hh | ht
    · split
      · omega
      · subst hh
        rw [if_pos (by simp)]
    · have := ih ht
      split
      · omega
      · omega

theorem pyRfind_sound : ∀ (l : Text) (c : Char), 0 ≤ pyRfind l c →
    l.get? (pyRfind l c).toNat = some c := by
  intro l c
  induction l with
  | nil => intro h; simp [pyRfind] at h
  | cons a rest ih =>
    intro h
    simp only [pyRfind] at h ⊢
    by_cases hr : 0 ≤ pyRfind rest c
    · rw [if_pos hr] at h ⊢
      have htn : (pyRfind rest c + 1).toNat = (pyRfind rest c).toNat + 1 := by omega
      rw [htn, List.get?_cons_succ]
      exact ih hr
    · rw [if_neg hr] at h ⊢
      by_cases ha : a == c
      · rw [if_pos ha] at h ⊢
        have : a = c := by simpa using ha
        subst this
        simp
      · rw [if_neg ha] at h
        omega

/- Lemmas about character classes. -/

theorem wordChar_not_space (c : Char) (h : isWordChar c = true) : pyIsSpace c = false := by
  by_contra hs
  have hs' : pyIsSpace c = true := by
    cases hx : pyIsSpace c
    · exact absurd hx hs
    · rfl
  have hone : c = ' ' ∨ c = '\t' ∨ c = '\n' ∨ c = '\r' ∨ c = '\x0b' ∨ c = '\x0c' := by
    simp only [pyIsSpace, Bool.or_eq_true, beq_iff_eq] at hs'
    tauto
  rcases hone with rfl | rfl | rfl | rfl | rfl | rfl <;> exact absurd h (by decide)

theorem wordChar_not_terminator (c : Char) (h : isWordChar c = true) : isTerminator c = false := by
  by_contra hs
  have hs' : isTerminator c = true := by
    cases hx : isTerminator c
    · exact absurd hx hs
    · rfl
  have hone : c = '.' ∨ c = '!' ∨ c = '?' := by
    simp only [isTerminator, Bool.or_eq_true, beq_iff_eq] at hs'
    tauto
  rcases hone with rfl | rfl | rfl <;> exact absurd h (by decide)

/- Lemmas about pyRstrip. -/

theorem pyRstrip_initial (l : Text) : pyRstrip l <+: l := by
  refine ⟨(l.reverse.takeWhile pyIsSpace).reverse, ?_⟩
  unfold pyRstrip
  rw [← List.reverse_append, List.takeWhile_append_dropWhile, List.reverse_reverse]

theorem pyRstrip_of_last_not_space (l : Text)
    (h : ∀ c, l.getLast? = some c → pyIsSpace c = false) : pyRstrip l = l := by
  unfold pyRstrip
  cases hr : l.reverse with
  | nil =>
    have hnil : l = [] := by
      have := congrArg List.reverse hr
      simpa using this
    subst hnil
    simp
  | cons c r =>
    have hc : l.getLast? = some c := by
      rw [← List.head?_reverse, hr]
      rfl
    have hcs : pyIsSpace c = false := h c hc
    rw [List.dropWhile_cons, if_neg (by simp [hcs])]
    rw [← hr, List.reverse_reverse]

/- Lemmas about sentenceTrim. -/

theorem sentenceTrim_of_ends (t : Text) (h : endsWithTerminator t = true) :
    sentenceTrim t = t := by
  unfold sentenceTrim
  rw [if_pos h]

theorem sentenceTrim_initial (t : Text) : sentenceTrim t <+: t := by
  unfold sentenceTrim
  by_cases he : endsWithTerminator t = true
  · rw [if_pos he]
  · rw [if_neg he]
    by_cases hm : max (pyRfind t '.') (max (pyRfind t '!') (pyRfind t '?')) ≠ -1
    · rw [if_pos hm]
      exact ⟨t.drop _, List.take_append_drop _ t⟩
    · rw [if_neg hm]

theorem sentenceTrim_ends_of_mem (t : Text)
    (h : ∃ c ∈ t, isTerminator c = true) :
    endsWithTerminator (sentenceTrim t) = true := by
  by_cases he : endsWithTerminator t = true
  · rw [sentenceTrim_of_ends t he]
    exact he
  · obtain ⟨c0, hmem, hterm⟩ := h
    have h0 : c0 = '.' ∨ c0 = '!' ∨ c0 = '?' := by
      simp only [isTerminator, Bool.or_eq_true, beq_iff_eq] at hterm
      tauto
    have hge : 0 ≤ max (pyRfind t '.') (max (pyRfind t '!') (pyRfind t '?')) := by
      rcases h0 with rfl | rfl | rfl
      · exact le_trans (pyRfind_mem_ge_zero t _ hmem) (le_max_left _ _)
      · exact le_trans (le_trans (pyRfind_mem_ge_zero t _ hmem) (le_max_left _ _)) (le_max_right _ _)
      · exact le_trans (le_trans (pyRfind_mem_ge_zero t _ hmem) (le_max_right _ _)) (le_max_right _ _)
    unfold sentenceTrim
    rw [if_neg he, if_pos (by omega)]
    have hagree : ∀ x : Char, max (pyRfind t '.') (max (pyRfind t '!') (pyRfind t '?')) = pyRfind t x →
        endsWithTerminator (t.take ((max (pyRfind t '.') (max (pyRfind t '!') (pyRfind t '?'))).toNat + 1)) = true ∨
        ¬ isTerminator x = true := by
      intro x hx
      by_cases hxt : isTerminator x = true
      · left
        have hsx : t.get? (pyRfind t x).toNat = some x := pyRfind_sound t x (by omega)
        have hlast := getLast?_take_succ t (pyRfind t x).toNat x hsx
        rw [← hx] at hlast
        unfold endsWithTerminator
        rw [hlast]
        exact hxt
      · right
        exact hxt
    rcases max_choice (pyRfind t '.') (max (pyRfind t '!') (pyRfind t '?')) with hm | hm
    · rcases hagree '.' hm with hok | hbad
      · exact hok
      · exact absurd (by decide) hbad
    · rcases max_choice (pyRfind t '!') (pyRfind t '?') with hm2 | hm2
      · rcases hagree '!' (by rw [hm, hm2]) with hok | hbad
        · exact hok
        · exact absurd (by decide) hbad
      · rcases hagree '?' (by rw [hm, hm2]) with hok | hbad
        · exact hok
        · exact absurd (by decide) hbad

theorem sentenceTrim_of_no_terminator (t : Text)
    (hne : endsWithTerminator t = false)
    (h : ∀ c ∈ t, isTerminator c = false) : sentenceTrim t = t := by
  unfold sentenceTrim
  rw [if_neg (by simp [hne])]
  have hnone : ∀ x : Char, isTerminator x = true → pyRfind t x = -1 := by
    intro x hx
    by_contra hbad
    have hge : 0 ≤ pyRfind t x := by
      have := pyRfind_ge_neg_one t x
      omega
    have hsx := pyRfind_sound t x hge
    have hmem := List.get?_mem hsx
    have := h x hmem
    rw [this] at hx
    exact absurd hx (by decide)
  rw [hnone '.' (by decide), hnone '!' (by decide), hnone '?' (by decide)]
  simp

/- Facts about the cutoff position and the hard truncation. -/

theorem cutoff_facts (cs : Text) (maxw : Nat) (h : maxw < word_count cs) :
    ∃ e, cutoffPos (findWordMatches cs) maxw = e ∧ 1 ≤ e ∧ e ≤ cs.length ∧
      (1 ≤ maxw → maximalRunCount (cs.take e) = maxw) ∧
      (∃ c, cs.get? (e - 1) = some c ∧ isWordChar c = true) ∧
      (∀ c, cs.get? e = some c → isWordChar c = false) := by
  have hcount : word_count cs = (findWordMatches cs).length := word_count_eq_matches_length cs
  have hjlt : (if maxw = 0 then (findWordMatches cs).length - 1 else maxw - 1) <
      (findWordMatches cs).length := by
    split <;> omega
  obtain ⟨⟨s, e⟩, hget⟩ : ∃ p, (findWordMatches cs).get?
      (if maxw = 0 then (findWordMatches cs).length - 1 else maxw - 1) = some p := by
    cases hx : (findWordMatches cs).get?
        (if maxw = 0 then (findWordMatches cs).length - 1 else maxw - 1) with
    | none =>
      have := List.get?_eq_none.mp hx
      omega
    | some p => exact ⟨p, rfl⟩
  obtain ⟨h1, h2, h3, h4, h5⟩ := findWordMatches_end_spec cs _ s e hget
  refine ⟨e, ?_, h1, h2, ?_, h4, h5⟩
  · unfold cutoffPos
    by_cases hm : maxw = 0
    · rw [if_pos hm]
      rw [if_pos hm] at hget
      rw [List.getLast?_eq_get?, hget]
      rfl
    · rw [if_neg hm]
      rw [if_neg hm] at hget
      rw [hget]
      rfl
  · intro hmge
    rw [if_neg (by omega)] at hget h3
    omega

theorem hardTruncated_facts (cs : Text) (maxw : Nat) (h : maxw < word_count cs) :
    ∃ e, 1 ≤ e ∧ e ≤ cs.length ∧ hardTruncated cs maxw = cs.take e ∧
      (1 ≤ maxw → maximalRunCount (cs.take e) = maxw) ∧
      (∀ c, cs.get? e = some c → isWordChar c = false) := by
  obtain ⟨e, hcut, h1, h2, h3, ⟨cw, hcw, hcwword⟩, h5⟩ := cutoff_facts cs maxw h
  refine ⟨e, h1, h2, ?_, h3, h5⟩
  unfold hardTruncated
  rw [hcut]
  apply pyRstrip_of_last_not_space
  intro c hc
  have hlastc : (cs.take e).getLast? = some cw := by
    have hgc : cs.get? (e - 1) = some cw := hcw
    have := getLast?_take_succ cs (e - 1) cw hgc
    rw [show e - 1 + 1 = e from by omega] at this
    exact this
  rw [hlastc] at hc
  injection hc with hcc
  subst hcc
  exact wordChar_not_space cw hcwword

/- Branch lemmas for enforce_word_limits. -/

theorem enforce_truncated_eq (cs : Text) (minw maxw : Nat) (h : maxw < word_count cs) :
    enforce_word_limits cs minw maxw =
      (sentenceTrim (hardTruncated cs maxw), Status.truncated) := by
  unfold enforce_word_limits
  rw [word_count_eq_matches_length] at h
  rw [if_pos h]

theorem enforce_no_truncation (cs : Text) (minw maxw : Nat) (h : ¬ maxw < word_count cs) :
    (enforce_word_limits cs minw maxw).1 = cs := by
  unfold enforce_word_limits
  rw [word_count_eq_matches_length] at h
  rw [if_neg h]
  split <;> rfl

theorem enforce_too_short_eq (cs : Text) (minw maxw : Nat)
    (h1 : ¬ maxw < word_count cs) (h2 : word_count cs < minw) :
    enforce_word_limits cs minw maxw = (cs, Status.too_short) := by
  unfold enforce_word_limits
  rw [word_count_eq_matches_length] at h1 h2
  rw [if_neg h1, if_pos h2]

theorem enforce_ok_eq (cs : Text) (minw maxw : Nat)
    (h1 : ¬ maxw < word_count cs) (h2 : ¬ word_count cs < minw) :
    enforce_word_limits cs minw maxw = (cs, Status.ok) := by
  unfold enforce_word_limits
  rw [word_count_eq_matches_length] at h1 h2
  rw [if_neg h1, if_neg h2]

/-- Word-count bound of the truncated branch, for a positive maximum. -/
theorem enforce_truncated_word_count (cs : Text) (minw maxw : Nat)
    (hmax : 1 ≤ maxw) (h : maxw < word_count cs) :
    word_count (enforce_word_limits cs minw maxw).1 ≤ maxw := by
  rw [enforce_truncated_eq cs minw maxw h]
  obtain ⟨e, h1, h2, heq, h3, h5⟩ := hardTruncated_facts cs maxw h
  have hrc : maximalRunCount (cs.take e) = maxw := h3 hmax
  have hst : sentenceTrim (hardTruncated cs maxw) <+: cs.take e := by
    rw [← heq]
    exact sentenceTrim_initial (hardTruncated cs maxw)
  calc word_count (sentenceTrim (hardTruncated cs maxw))
      = maximalRunCount (sentenceTrim (hardTruncated cs maxw)) := word_count_eq_runs _
    _ ≤ maximalRunCount (cs.take e) := maximalRunCount_mono _ _ hst
    _ = maxw := hrc

/-- The result of enforce_word_limits is always an initial segment of the
input text. -/
theorem enforce_initial_segment (cs : Text) (minw maxw : Nat) :
    (enforce_word_limits cs minw maxw).1 <+: cs := by
  by_cases h : maxw < word_count cs
  · rw [enforce_truncated_eq cs minw maxw h]
    have hst := sentenceTrim_initial (hardTruncated cs maxw)
    have hrs : hardTruncated cs maxw <+: cs.take (cutoffPos (findWordMatches cs) maxw) :=
      pyRstrip_initial _
    have htp : cs.take (cutoffPos (findWordMatches cs) maxw) <+: cs :=
      ⟨cs.drop _, List.take_append_drop _ cs⟩
    exact hst.trans (hrs.trans htp)
  · rw [enforce_no_truncation cs minw maxw h]

/- Claim theorems. -/

/-- C1 (amended): provided max_words is at least 1 and min_words is at most
max_words, enforce_word_limits returns, for a text whose word count exceeds
max_words, a text of word count at most max_words with status truncated;
for a text whose word count is below min_words, the text unchanged with
status too_short; and for a text whose word count lies within the range,
the text unchanged with status ok.  (The claim fails for max_words = 0,
where the Python index max_words - 1 = -1 selects the last match.) -/
theorem enforce_word_limits_spec (cs : Text) (minw maxw : Nat)
    (hmax : 1 ≤ maxw) (hmm : minw ≤ maxw) :
    (maxw < word_count cs →
       word_count (enforce_word_limits cs minw maxw).1 ≤ maxw ∧
       (enforce_word_limits cs minw maxw).2 = Status.truncated) ∧
    (word_count cs < minw → enforce_word_limits cs minw maxw = (cs, Status.too_short)) ∧
    (minw ≤ word_count cs → word_count cs ≤ maxw →
       enforce_word_limits cs minw maxw = (cs, Status.ok)) := by
  refine ⟨?_, ?_, ?_⟩
  · intro h
    refine ⟨enforce_truncated_word_count cs minw maxw hmax h, ?_⟩
    rw [enforce_truncated_eq cs minw maxw h]
  · intro h
    exact enforce_too_short_eq cs minw maxw (by omega) h
  · intro h1 h2
    exact enforce_ok_eq cs minw maxw (by omega) (by omega)

/-- C1 witness: on a three-word text with bounds (1, 2) the theorem yields
the truncated status and the word-count bound. -/
theorem enforce_word_limits_spec_w :
    word_count (enforce_word_limits ("a b c".data) 1 2).1 ≤ 2 ∧
    (enforce_word_limits ("a b c".data) 1 2).2 = Status.truncated :=
  (enforce_word_limits_spec ("a b c".data) 1 2 (by decide) (by decide)).1 (by decide)

/-- C1 counterexample: with max_words = 0 the text "hi" exceeds the maximum,
the status is truncated, yet the returned text still has word count 1 > 0,
refuting the claimed bound word count ≤ max_words. -/
theorem enforce_word_limits_zero_max_cex :
    0 < word_count ("hi".data) ∧
    (enforce_word_limits ("hi".data) 0 0).2 = Status.truncated ∧
    ¬ word_count (enforce_word_limits ("hi".data) 0 0).1 ≤ 0 := by decide

/-- C3 (amended): for a text whose word count exceeds max_words, the
truncated result either ends with a sentence terminator or is followed, in
the original text, by a non-word character or the end of the string (the
following character need not be whitespace; it can be punctuation such as
a comma); and whenever a terminator occurs in the hard-truncated prefix,
the result ends with a terminator. -/
theorem enforce_truncation_boundary (cs : Text) (minw maxw : Nat)
    (h : maxw < word_count cs) :
    (endsWithTerminator (enforce_word_limits cs minw maxw).1 = true ∨
      ∀ c, cs.get? (enforce_word_limits cs minw maxw).1.length = some c →
        isWordChar c = false) ∧
    ((∃ c ∈ hardTruncated cs maxw, isTerminator c = true) →
      endsWithTerminator (enforce_word_limits cs minw maxw).1 = true) := by
  have henf := enforce_truncated_eq cs minw maxw h
  obtain ⟨e, h1, h2, heq, h3, h5⟩ := hardTruncated_facts cs maxw h
  constructor
  · by_cases hex : ∃ c ∈ hardTruncated cs maxw, isTerminator c = true
    · left
      rw [henf]
      exact sentenceTrim_ends_of_mem _ hex
    · right
      push_neg at hex
      have hexf : ∀ c ∈ hardTruncated cs maxw, isTerminator c = false := by
        intro c hc
        have hne := hex c hc
        cases hx : isTerminator c
        · rfl
        · exact absurd hx hne
      have hne : endsWithTerminator (hardTruncated cs maxw) = false := by
        unfold endsWithTerminator
        cases hl : (hardTruncated cs maxw).getLast? with
        | none => rfl
        | some c => exact hexf c (getLast?_mem' _ c hl)
      have hs4 := sentenceTrim_of_no_terminator _ hne hexf
      rw [henf]
      show ∀ c, cs.get? (sentenceTrim (hardTruncated cs maxw)).length = some c →
        isWordChar c = false
      rw [hs4, heq]
      intro c hc
      have hlen : (cs.take e).length = e := by
        rw [List.length_take]
        omega
      rw [hlen] at hc
      exact h5 c hc
  · intro hex
    rw [henf]
    exact sentenceTrim_ends_of_mem _ hex

/-- C3 witness: instantiation at the text "one two,three" with bounds
(0, 2). -/
theorem enforce_truncation_boundary_w :
    (endsWithTerminator (enforce_word_limits ("one two,three".data) 0 2).1 = true ∨
      ∀ c, ("one two,three".data).get?
          (enforce_word_limits ("one two,three".data) 0 2).1.length = some c →
        isWordChar c = false) ∧
    ((∃ c ∈ hardTruncated ("one two,three".data) 2, isTerminator c = true) →
      endsWithTerminator (enforce_word_limits ("one two,three".data) 0 2).1 = true) :=
  enforce_truncation_boundary ("one two,three".data) 0 2 (by decide)

/-- C3 counterexample: truncating "one two,three" to two words yields
"one two", and the character of the original text immediately following the
result is the comma, which is neither whitespace nor end-of-string,
refuting the claimed whitespace-or-end boundary. -/
theorem enforce_truncation_whitespace_cex :
    2 < word_count ("one two,three".data) ∧
    (enforce_word_limits ("one two,three".data) 0 2).1 = "one two".data ∧
    ("one two,three".data).get? ("one two".data).length = some ',' ∧
    pyIsSpace ',' = false := by decide

/-- C4 (amended): for max_words at least 1, applying enforce_word_limits
twice with the same bounds yields the same text as applying it once; the
full result pair is not preserved, because a truncated result is reported
with status ok or too_short by the second application. -/
theorem enforce_word_limits_text_idem (cs : Text) (minw maxw : Nat) (hmax : 1 ≤ maxw) :
    (enforce_word_limits (enforce_word_limits cs minw maxw).1 minw maxw).1 =
      (enforce_word_limits cs minw maxw).1 := by
  by_cases h : maxw < word_count cs
  · have hle := enforce_truncated_word_count cs minw maxw hmax h
    exact enforce_no_truncation _ minw maxw (by omega)
  · have h1 := enforce_no_truncation cs minw maxw h
    rw [h1]
    exact h1

/-- C4 witness: instantiation at the text "a b c d" with bounds (1, 3). -/
theorem enforce_word_limits_text_idem_w :
    (enforce_word_limits (enforce_word_limits ("a b c d".data) 1 3).1 1 3).1 =
      (enforce_word_limits ("a b c d".data) 1 3).1 :=
  enforce_word_limits_text_idem ("a b c d".data) 1 3 (by decide)

/-- C4 counterexample: on "a b c" with bounds (0, 2) the first application
returns ("a b", truncated) and the second returns ("a b", ok), so applying
the function twice does not yield the same result pair as applying it
once. -/
theorem enforce_word_limits_idem_cex :
    enforce_word_limits (enforce_word_limits ("a b c".data) 0 2).1 0 2 ≠
      enforce_word_limits ("a b c".data) 0 2 := by decide

/-- C5: word_count, defined from re.findall with the pattern \b\w+\b,
counts exactly the maximal runs of word characters [A-Za-z0-9_]; in
particular tokens made only of punctuation contribute zero. -/
theorem word_count_counts_maximal_runs (t : Text) :
    word_count t = maximalRunCount t :=
  word_count_eq_runs t

/-- C10: the text returned by enforce_word_limits is always a prefix of the
input text; the function only removes a suffix and never inserts, reorders
or rewrites retained content. -/
theorem enforce_word_limits_initial_segment (cs : Text) (minw maxw : Nat) :
    (enforce_word_limits cs minw maxw).1 <+: cs :=
  enforce_initial_segment cs minw maxw

/- Classifier claims. -/

/-- C6: the syntactic gate of is_valid_industry rejects, with no call to
the match oracle or the model: every input whose stripped form is shorter
than 3 characters, or purely numeric, or containing a character outside
the allowed class yields false, whatever the BLS list, the fuzzy matcher
and the model reply are. -/
theorem is_valid_industry_gate (bls : List String) (cm : String → List String → Bool)
    (reply : Option (Option (List (Option String)))) (input : String)
    (h : (pyStripStr input).length < 3 ∨ pyIsDigit (pyStripStr input) = true ∨
      (∃ c ∈ (pyStripStr input).data, isAllowedChar c = false)) :
    is_valid_industry bls cm reply input = false := by
  unfold is_valid_industry
  by_cases h1 : (pyStripStr input).length < 3
  · rw [if_pos h1]
  · rw [if_neg h1]
    by_cases h2 : pyIsDigit (pyStripStr input) = true
    · rw [if_pos h2]
    · rw [if_neg h2]
      have h3 : ∃ c ∈ (pyStripStr input).data, isAllowedChar c = false := by
        rcases h with hh | hh | hh
        · exact absurd hh h1
        · exact absurd hh h2
        · exact hh
      have hall : (pyStripStr input).data.all isAllowedChar = false := by
        obtain ⟨c, hcmem, hcbad⟩ := h3
        cases hx : (pyStripStr input).data.all isAllowedChar
        · rfl
        · have := List.all_eq_true.mp hx c hcmem
          rw [this] at hcbad
          exact absurd hcbad (by decide)
      rw [if_pos (by simp [matchesAllowed, hall])]

/-- C6 witness: the two examples of the claim, a purely numeric input and a
too-short input, are rejected. -/
theorem is_valid_industry_gate_w :
    is_valid_industry [] (fun _ _ => false) none "12345" = false ∧
    is_valid_industry [] (fun _ _ => false) none "ab" = false :=
  ⟨is_valid_industry_gate [] (fun _ _ => false) none "12345"
      (Or.inr (Or.inl (by decide))),
    is_valid_industry_gate [] (fun _ _ => false) none "ab" (Or.inl (by decide))⟩

/-- C7: for an input that passes the syntactic gate and finds no fuzzy
reference-list match, with a model reply that returns a response, the
classifier accepts exactly when the extracted reply, stripped and
uppercased, is literally the token YES; any other reply, including one
merely containing YES, yields false. -/
theorem is_valid_industry_verdict_exact (bls : List String)
    (cm : String → List String → Bool) (resp : Option (List (Option String)))
    (input : String)
    (h1 : 3 ≤ (pyStripStr input).length)
    (h2 : pyIsDigit (pyStripStr input) = false)
    (h3 : matchesAllowed (pyStripStr input) = true)
    (h4 : bls = [] ∨ cm (pyLower (pyStripStr input)) bls = false) :
    (is_valid_industry bls cm (some resp) input = true ↔
      pyUpper (pyStripStr (extract_text_from_response resp)) = "YES") := by
  unfold is_valid_industry
  rw [if_neg (by omega), if_neg (by simp [h2]), if_neg (by simp [h3])]
  have hfuzzy : (!bls.isEmpty && cm (pyLower (pyStripStr input)) bls) = false := by
    rcases h4 with hb | hc
    · subst hb
      rfl
    · rw [hc, Bool.and_false]
  rw [if_neg (by simp [hfuzzy])]
  simp [beq_iff_eq]

/-- C7 witness: a reply "YES." that merely contains the token is rejected
for an input reaching the model-fallback stage. -/
theorem is_valid_industry_verdict_exact_w :
    is_valid_industry [] (fun _ _ => false) (some (some [some "YES."]))
      "Quantum Widgets" = false := by
  have h := is_valid_industry_verdict_exact [] (fun _ _ => false)
    (some [some "YES."]) "Quantum Widgets" (by decide) (by decide) (by decide)
    (Or.inl rfl)
  revert h
  decide

/-- C2 (amended): when the model-fallback call raises (timeout, transport
error), is_valid_industry returns true, i.e. the classifier fails open, for
every input that reaches the model-fallback stage. -/
theorem is_valid_industry_fail_open (bls : List String)
    (cm : String → List String → Bool) (input : String)
    (h1 : 3 ≤ (pyStripStr input).length)
    (h2 : pyIsDigit (pyStripStr input) = false)
    (h3 : matchesAllowed (pyStripStr input) = true)
    (h4 : bls = [] ∨ cm (pyLower (pyStripStr input)) bls = false) :
    is_valid_industry bls cm none input = true := by
  unfold is_valid_industry
  rw [if_neg (by omega), if_neg (by simp [h2]), if_neg (by simp [h3])]
  have hfuzzy : (!bls.isEmpty && cm (pyLower (pyStripStr input)) bls) = false := by
    rcases h4 with hb | hc
    · subst hb
      rfl
    · rw [hc, Bool.and_false]
  rw [if_neg (by simp [hfuzzy])]

/-- C2 witness: a well-formed industry name with an unavailable provider is
accepted. -/
theorem is_valid_industry_fail_open_w :
    is_valid_industry [] (fun _ _ => false) none "Fintech" = true :=
  is_valid_industry_fail_open [] (fun _ _ => false) "Fintech" (by decide)
    (by decide) (by decide) (Or.inl rfl)

/-- C2 counterexample: the input "Cybersecurity" passes the syntactic gate
and, with an empty reference list, reaches the model-fallback stage; when
the call raises, the classifier returns true, not false as the claim
states. -/
theorem is_valid_industry_provider_error_cex :
    3 ≤ (pyStripStr "Cybersecurity").length ∧
    pyIsDigit (pyStripStr "Cybersecurity") = false ∧
    matchesAllowed (pyStripStr "Cybersecurity") = true ∧
    is_valid_industry [] (fun _ _ => false) none "Cybersecurity" = true := by
  decide

/- Retriever claim. -/

theorem get_wikipedia_urls_foldl {α : Type} (page : α → Option (String × String)) :
    ∀ (ts : List α) (acc : List String × List String),
      ts.foldl
        (fun acc title =>
          match page title with
          | some pr => (acc.1 ++ [pr.1], acc.2 ++ [pr.2])
          | none => acc) acc =
      (acc.1 ++ ts.filterMap (fun t => (page t).map Prod.fst),
        acc.2 ++ ts.filterMap (fun t => (page t).map Prod.snd)) := by
  intro ts
  induction ts with
  | nil => intro acc; simp
  | cons t r ih =>
    intro acc
    rw [List.foldl_cons, List.filterMap_cons, List.filterMap_cons]
    cases hp : page t with
    | none =>
      simp only [hp, ih]
      simp
    | some pr =>
      simp only [hp, ih]
      simp

/-- C8: the source retriever returns at most 5 documents when the provider
returns at most 5 titles, the returned urls and texts are exactly the
provider's titles in rank order with the non-existing pages silently
dropped, and an empty search result yields the empty pair rather than an
error. -/
theorem get_wikipedia_urls_spec {α : Type} (search_results : List α)
    (page : α → Option (String × String)) (h : search_results.length ≤ 5) :
    (get_wikipedia_urls search_results page).1.length ≤ 5 ∧
    (get_wikipedia_urls search_results page).1 =
      search_results.filterMap (fun t => (page t).map Prod.fst) ∧
    (get_wikipedia_urls search_results page).2 =
      search_results.filterMap (fun t => (page t).map Prod.snd) ∧
    get_wikipedia_urls ([] : List α) page = ([], []) := by
  have hfold := get_wikipedia_urls_foldl page search_results ([], [])
  have heq : get_wikipedia_urls search_results page =
      (search_results.filterMap (fun t => (page t).map Prod.fst),
        search_results.filterMap (fun t => (page t).map Prod.snd)) := by
    unfold get_wikipedia_urls
    rw [hfold]
    simp
  refine ⟨?_, by rw [heq], by rw [heq], rfl⟩
  rw [heq]
  exact le_trans (List.length_filterMap_le _ _) h

/-- C8 witness: three titles, the middle one resolving to a missing page,
yield the two existing documents in order. -/
theorem get_wikipedia_urls_spec_w :
    (get_wikipedia_urls ["A", "B", "C"]
        (fun t => if t = "B" then none else some (t ++ "-url", t ++ "-text"))).1.length ≤ 5 ∧
    (get_wikipedia_urls ["A", "B", "C"]
        (fun t => if t = "B" then none else some (t ++ "-url", t ++ "-text"))).1 =
      (["A", "B", "C"]).filterMap
        (fun t => ((if t = "B" then none else some (t ++ "-url", t ++ "-text")).map Prod.fst)) ∧
    (get_wikipedia_urls ["A", "B", "C"]
        (fun t => if t = "B" then none else some (t ++ "-url", t ++ "-text"))).2 =
      (["A", "B", "C"]).filterMap
        (fun t => ((if t = "B" then none else some (t ++ "-url", t ++ "-text")).map Prod.snd)) ∧
    get_wikipedia_urls ([] : List String)
      (fun t => if t = "B" then none else some (t ++ "-url", t ++ "-text")) = ([], []) :=
  get_wikipedia_urls_spec ["A", "B", "C"]
    (fun t => if t = "B" then none else some (t ++ "-url", t ++ "-text")) (by decide)

/- Synthesis claim. -/

theorem generate_report_parts_none_iff (gen : String → Option (List (Option String))) :
    ∀ sections : List String,
      (generate_report_parts gen sections = none ↔
        ∃ s ∈ sections, pyStripStr (extract_text_from_response (gen s)) = "") := by
  intro sections
  induction sections with
  | nil => simp [generate_report_parts]
  | cons s rest ih =>
    unfold generate_report_parts
    by_cases hs : pyStripStr (extract_text_from_response (gen s)) = ""
    · rw [if_pos hs]
      simp only [true_iff]
      exact ⟨s, List.mem_cons_self s rest, hs⟩
    · rw [if_neg hs]
      cases hrec : generate_report_parts gen rest with
      | none =>
        simp only [true_iff]
        obtain ⟨x, hxmem, hx⟩ := ih.mp hrec
        exact ⟨x, List.mem_cons_of_mem s hxmem, hx⟩
      | some parts =>
        constructor
        · intro hcontra
          exact absurd hcontra (by simp)
        · rintro ⟨x, hxmem, hx⟩
          rcases List.mem_cons.mp hxmem with rfl | hxr
          · exact absurd hx hs
          · have hnone : generate_report_parts gen rest = none := ih.mpr ⟨x, hxr, hx⟩
            rw [hrec] at hnone
            exact absurd hnone (by simp)

/-- C9: with the five fixed section headings, the section generation loop
produces no report exactly when some section call returns an empty result
after extraction, in which case the whole synthesis fails with no partial
report; a list of parts is produced exactly when every section call
returns non-empty text. -/
theorem generate_report_sections_spec (gen : String → Option (List (Option String))) :
    (generate_report_parts gen report_sections = none ↔
      ∃ s ∈ report_sections, pyStripStr (extract_text_from_response (gen s)) = "") ∧
    ((∃ parts, generate_report_parts gen report_sections = some parts) ↔
      ∀ s ∈ report_sections, pyStripStr (extract_text_from_response (gen s)) ≠ "") := by
  have hiff := generate_report_parts_none_iff gen report_sections
  constructor
  · exact hiff
  · constructor
    · rintro ⟨parts, hparts⟩ s hs hempty
      have hnone : generate_report_parts gen report_sections = none :=
        hiff.mpr ⟨s, hs, hempty⟩
      rw [hparts] at hnone
      exact absurd hnone (by simp)
    · intro hall
      cases hx : generate_report_parts gen report_sections with
      | none =>
        obtain ⟨s, hs, hempty⟩ := hiff.mp hx
        exact absurd hempty (hall s hs)
      | some parts => exact ⟨parts, rfl⟩

end App
